import Mathlib

/-!
Verification of `machine-as-script` (src/index.js): a shallow embedding of the
script adapter's data flow in Lean 4.

The adapter (`runMachineAsScript` in src/index.js) takes a machine definition
(or options wrapping one), derives CLI flags from the declared inputs, builds a
configuration object out of parsed CLI flags, environment variables and
positional arguments, coerces every configured value with the rttc collaborator,
instantiates the machine, and binds default `error` / `success` exit handlers
that print to the console.

JavaScript runtime data is embedded as `JVal`; JS objects (whose keys are
unique and kept in insertion order) as association lists `JObj` manipulated only
through `jget` / `jset` / `jerase`.  Console output is embedded as a list of
`ConsoleLine`s (chalk styles become constructors).  External collaborators that
are not part of this repository (yargs' parsed output, `process.env`, rttc's
`infer`/`parseHuman`) enter as explicit parameters or as small models noted in
their doc comments.
-/

set_option maxHeartbeats 1000000

namespace MachineAsScript

/-- JavaScript-like runtime values, as far as the adapter inspects them:
strings, numbers (the scripts in question only ever exercise integral values),
booleans, `undefined`, arrays and plain objects. -/
inductive JVal : Type where
  | str : String → JVal
  | num : Int → JVal
  | bool : Bool → JVal
  | undef : JVal
  | arr : List JVal → JVal
  | dict : List (String × JVal) → JVal

/-- A JS object: association list of key/value pairs in insertion order.
Keys of an actual JS object are unique; theorems that need this carry a
`Nodup` hypothesis on the key list. -/
abbrev JObj : Type := List (String × JVal)

/-- Property read `o[k]`: first (i.e. only) binding of the key, if any. -/
def jget : JObj → String → Option JVal
  | [], _ => none
  | (k, v) :: rest, name => if k = name then some v else jget rest name

/-- Property write `o[k] = v`: overwrite the existing binding in place,
else append a new one (JS insertion-order semantics). -/
def jset : JObj → String → JVal → JObj
  | [], k, v => [(k, v)]
  | (k', v') :: rest, k, v =>
    if k' = k then (k, v) :: rest else (k', v') :: jset rest k v

/-- Property delete `delete o[k]`. -/
def jerase (o : JObj) (k : String) : JObj :=
  o.filter (fun p => !(p.1 == k))

/-- JS truthiness, as used by `if (!opts.machine)` (src/index.js:34) and
`err.stack ? … : …` (src/index.js:192). -/
def jsTruthy : JVal → Bool
  | .str s => !s.isEmpty
  | .num n => !(n == 0)
  | .bool b => b
  | .undef => false
  | .arr _ => true
  | .dict _ => true

/-- `_.isString(v)` (src/index.js:47). -/
def JVal.isString : JVal → Bool
  | .str _ => true
  | _ => false

/-- JS string coercion `val + ''` (src/index.js:179): strings unchanged,
numbers printed, booleans `true`/`false`, `undefined` becomes the string
`"undefined"`, arrays join with commas, objects print the generic tag. -/
def jsToString : JVal → String
  | .str s => s
  | .num n => toString n
  | .bool b => if b then "true" else "false"
  | .undef => "undefined"
  | .arr l => String.intercalate "," (l.map fun v =>
      match v with
      | .str s => s
      | .num n => toString n
      | .bool b => if b then "true" else "false"
      | .undef => ""
      | .arr _ => ""
      | .dict _ => "[object Object]")
  | .dict _ => "[object Object]"

/-- An input descriptor as the adapter reads it: only the `example` value
matters for coercion (src/index.js:180).  The source field is named
`example`, which is a Lean keyword, hence `exampleVal`. -/
structure InputDef : Type where
  exampleVal : JVal

/-- Declared inputs of the (wet) machine: name → descriptor, insertion order. -/
abbrev Inputs : Type := List (String × InputDef)

/-- `wetMachine.inputs[name]` lookup. -/
def lookupInput : Inputs → String → Option InputDef
  | [], _ => none
  | (k, d) :: rest, name => if k = name then some d else lookupInput rest name

/-- Modelled from the spec: type tags of the external rttc collaborator's
`rttc.infer` (string, number, boolean, and a catch-all for schema-like
examples), which is not part of this repository's source. -/
inductive RttcType : Type where
  | string : RttcType
  | number : RttcType
  | boolean : RttcType
  | json : RttcType

/-- Modelled from the spec: `rttc.infer(example)` of the external rttc
collaborator — infer the target type from the declared example value
(example `'abc'` ⇒ string, `123` ⇒ number, `true` ⇒ boolean; everything
else is treated as a generic schema here since no claim depends on it). -/
def infer : JVal → RttcType
  | .str _ => .string
  | .num _ => .number
  | .bool _ => .boolean
  | _ => .json

/-- Modelled from the spec: digit accumulator for the numeric branch of the
human-friendly parser (external rttc collaborator). -/
def parseNatDigitsAux : List Char → Nat → Option Nat
  | [], acc => some acc
  | c :: cs, acc =>
    if c.isDigit then parseNatDigitsAux cs (10 * acc + (c.toNat - 48)) else none

/-- Modelled from the spec: parse an optionally-signed run of decimal digits,
the numeric grammar the external rttc collaborator accepts for plain CLI
number input. -/
def parseIntOfString (s : String) : Option Int :=
  match s.data with
  | [] => none
  | '-' :: [] => none
  | '-' :: c :: cs => (parseNatDigitsAux (c :: cs) 0).map (fun n => -(n : Int))
  | c :: cs => (parseNatDigitsAux (c :: cs) 0).map (fun n => (n : Int))

/-- Modelled from the spec: `rttc.parseHuman(string, type, lenient)` of the
external rttc collaborator — lenient human-friendly parsing of a string for
the inferred type: strings pass through, numeric text becomes a number,
`true`/`false` become booleans; in lenient mode unparseable text falls back
to a best-effort base value instead of throwing. -/
def parseHuman (s : String) (t : RttcType) (lenient : Bool) : JVal :=
  match t with
  | .string => .str s
  | .number =>
    match parseIntOfString s with
    | some n => .num n
    | none => if lenient then .num 0 else .str s
  | .boolean =>
    if s = "true" then .bool true
    else if s = "false" then .bool false
    else if lenient then .bool false else .str s
  | .json => .str s

/-- src/index.js:33-40: use `opts.machine` as the machine definition when it
is truthy (and delete the key from the caller's options object); otherwise the
whole `opts` dictionary is the definition and is left untouched.  Returns
(machine definition, options object after this step). -/
def extractMachineDef (opts : JObj) : JVal × JObj :=
  match jget opts "machine" with
  | some m => if jsTruthy m then (m, jerase opts "machine") else (.dict opts, opts)
  | none => (.dict opts, opts)

/-- src/index.js:45-49: the environment-variable namespace defaults to `"___"`
and is replaced by `opts.envVarNamespace` exactly when that value is a string
(`_.isString`). -/
def resolveEnvVarNamespace (opts : JObj) : String :=
  match jget opts "envVarNamespace" with
  | some (.str s) => s
  | _ => "___"

/-- src/index.js:97-104: the attempted shortcut flag `'-' + inputName[0]`.
For an empty name, JS `""[0]` is `undefined` and the concatenation yields
`"-undefined"`. -/
def shortcutOf (name : String) : String :=
  if name.isEmpty then "-undefined" else "-" ++ name.take 1

/-- src/index.js:91-124: walk the declared inputs in order, deriving for each
the long flag `--name` and, when its first letter has not been claimed by an
earlier input, the shortcut `-letter`; the accumulator mirrors
`shortcutsSoFar` (`push` appends).  Yields (name, long flag, shortcut?). -/
def deriveFlagsAux : List String → List String → List (String × String × Option String)
  | _, [] => []
  | used, n :: rest =>
    if shortcutOf n ∈ used then
      (n, "--" ++ n, none) :: deriveFlagsAux used rest
    else
      (n, "--" ++ n, some (shortcutOf n)) :: deriveFlagsAux (used ++ [shortcutOf n]) rest

/-- The flag table derived from the declared input names, starting from an
empty `shortcutsSoFar` (src/index.js:88). -/
def deriveFlags (inputs : List String) : List (String × String × Option String) :=
  deriveFlagsAux [] inputs

/-- src/index.js:134-139: start the input configuration from yargs' parsed
flags, dropping the positional collector `_` and the program name `$0`. -/
def initialCliConfig (yargsArgv : JObj) : JObj :=
  jerase (jerase yargsArgv "_") "$0"

/-- src/index.js:142-151: for each declared input, look up the environment
variable `envVarNamespace + inputName`; when it is defined (even as the empty
string) its value overwrites the configuration entry for that input. -/
def supplyEnvVars (env : String → Option String) (ns : String) :
    Inputs → JObj → JObj
  | [], config => config
  | (name, _) :: rest, config =>
    match env (ns ++ name) with
    | none => supplyEnvVars env ns rest config
    | some v => supplyEnvVars env ns rest (jset config name (.str v))

/-- src/index.js:153-157: expose the raw positional-argument list under the
special `args` key (`yargs.argv._` is always an array, so the guard holds). -/
def supplyArgsKey (positional : List JVal) (config : JObj) : JObj :=
  jset config "args" (.arr positional)

/-- src/index.js:160-164 (`_.each(opts.args, …)`): the i-th declared
positional name receives `yargs.argv._[i]` — which is `undefined` when fewer
positional tokens were supplied. -/
def supplyPositionalAux (positional : List JVal) : Nat → List String → JObj → JObj
  | _, [], config => config
  | i, name :: rest, config =>
    supplyPositionalAux positional (i + 1) rest
      (jset config name (positional.getD i .undef))

/-- src/index.js:159-164: run the positional-name override only when the
caller supplied an array `opts.args`. -/
def supplyPositional (argNames : Option (List String)) (positional : List JVal)
    (config : JObj) : JObj :=
  match argNames with
  | some names => supplyPositionalAux positional 0 names config
  | none => config

/-- src/index.js:134-164: assemble the input configuration — CLI flags, then
environment variables, then the `args` key, then the positional-name
override. -/
def assembleConfig (yargsArgv : JObj) (env : String → Option String) (ns : String)
    (inputs : Inputs) (positional : List JVal) (argNames : Option (List String)) : JObj :=
  supplyPositional argNames positional
    (supplyArgsKey positional
      (supplyEnvVars env ns inputs (initialCliConfig yargsArgv)))

/-- src/index.js:167-182, the body of the `_.reduce`: entries whose key is not
a declared input throw (unless the key is the reserved `args`, which is
silently skipped); declared entries are stringified and parsed with
`rttc.parseHuman` in lenient mode for the type inferred from the input's
example. -/
def coerceConfigAux (inputs : Inputs) : JObj → JObj → Except String JObj
  | memo, [] => .ok memo
  | memo, (k, v) :: rest =>
    match lookupInput inputs k with
    | some d =>
      coerceConfigAux inputs
        (jset memo k (parseHuman (jsToString v) (infer d.exampleVal) true)) rest
    | none =>
      if k = "args" then coerceConfigAux inputs memo rest
      else .error ("Unexpected error: received configuration for unknown input (" ++ k ++ ")")

/-- src/index.js:167-182: the full `_.reduce` over the assembled
configuration, starting from an empty memo. -/
def coerceConfig (inputs : Inputs) (config : JObj) : Except String JObj :=
  coerceConfigAux inputs [] config

/-- A JS `Error` as the handlers inspect it: a message and an optional
`stack` string. -/
structure JsError : Type where
  message : String
  stack : Option String

/-- One console line, with its chalk style; `raw` is `console.error(err)` on
the bare error object and `inspected` is `util.inspect(output, {depth: null,
colors: true})`. -/
inductive ConsoleLine : Type where
  | red : String → ConsoleLine
  | gray : String → ConsoleLine
  | green : String → ConsoleLine
  | raw : JsError → ConsoleLine
  | inspected : JVal → ConsoleLine

/-- The success exit descriptor fields consulted at src/index.js:199-204
(`example` is a Lean keyword, hence `exampleVal`; `getExample` is a function
value, so only its presence is modelled). -/
structure ExitDef : Type where
  exampleVal : Option JVal
  hasGetExample : Bool
  like : Option String
  itemOf : Option String

/-- src/index.js:199-204: the success exit advertises structured output when
it has an `example`, a `getExample` function, a `like` reference or an
`itemOf` reference. -/
def expectsStructuredOutput (d : ExitDef) : Bool :=
  d.exampleVal.isSome || d.hasGetExample || d.like.isSome || d.itemOf.isSome

/-- src/index.js:189-193, the default `error` exit handler: a red banner, then
the stack in gray when `err.stack` is truthy (a non-empty string), else the
raw error object. -/
def errorExitHandler (err : JsError) : List ConsoleLine :=
  [.red "Something went wrong:",
   match err.stack with
   | some s => if s.isEmpty then .raw err else .gray s
   | none => .raw err]

/-- src/index.js:194-216, the default `success` exit handler: when the output
is defined it is pretty-printed only if the success exit expects structured
output (otherwise nothing is printed and the handler returns); the generic
green `OK.` is printed only when the output is undefined. -/
def successExitHandler (successExit : ExitDef) (output : Option JVal) : List ConsoleLine :=
  match output with
  | some v => if expectsStructuredOutput successExit then [.inspected v] else []
  | none => [.green "OK."]

/-! ### Basic object lemmas -/

theorem jget_jset_self (o : JObj) (k : String) (v : JVal) :
    jget (jset o k v) k = some v := by
  induction o with
  | nil => simp [jset, jget]
  | cons p rest ih =>
    obtain ⟨k0, v0⟩ := p
    by_cases h : k0 = k
    · simp [jset, h, jget]
    · simp [jset, h, jget, ih]

theorem jget_jset_ne (o : JObj) (k k' : String) (v : JVal) (h : k' ≠ k) :
    jget (jset o k v) k' = jget o k' := by
  induction o with
  | nil => simp [jset, jget, Ne.symm h]
  | cons p rest ih =>
    obtain ⟨k0, v0⟩ := p
    by_cases hp : k0 = k
    · subst hp
      rw [show jset ((k0, v0) :: rest) k0 v = (k0, v) :: rest by simp [jset]]
      simp [jget, Ne.symm h]
    · rw [show jset ((k0, v0) :: rest) k v = (k0, v0) :: jset rest k v by simp [jset, hp]]
      by_cases hp' : k0 = k'
      · simp [jget, hp']
      · simp [jget, hp', ih]

theorem jerase_cons (k0 : String) (v0 : JVal) (rest : JObj) (k : String) :
    jerase ((k0, v0) :: rest) k =
      if k0 = k then jerase rest k else (k0, v0) :: jerase rest k := by
  by_cases hp : k0 = k
  · simp [jerase, List.filter_cons, hp]
  · simp [jerase, List.filter_cons, hp]

theorem jget_jerase_self (o : JObj) (k : String) :
    jget (jerase o k) k = none := by
  induction o with
  | nil => simp [jerase, jget]
  | cons p rest ih =>
    obtain ⟨k0, v0⟩ := p
    rw [jerase_cons]
    by_cases h : k0 = k
    · simpa [h] using ih
    · simp [h, jget, ih]

theorem jget_jerase_ne (o : JObj) (k k' : String) (h : k' ≠ k) :
    jget (jerase o k) k' = jget o k' := by
  induction o with
  | nil => simp [jerase, jget]
  | cons p rest ih =>
    obtain ⟨k0, v0⟩ := p
    rw [jerase_cons]
    by_cases hp : k0 = k
    · subst hp
      simp [jget, Ne.symm h, ih]
    · by_cases hp' : k0 = k'
      · subst hp'
        simp [jget, hp]
      · simp [jget, hp, hp', ih]

theorem mem_keys_jset (o : JObj) (k : String) (v : JVal) (a : String) :
    a ∈ (jset o k v).map Prod.fst ↔ a ∈ o.map Prod.fst ∨ a = k := by
  induction o with
  | nil => simp [jset]
  | cons p rest ih =>
    obtain ⟨k0, v0⟩ := p
    by_cases h : k0 = k
    · subst h
      simp [jset]
      tauto
    · simp [jset, h, ih]
      tauto

theorem jset_keys_nodup (o : JObj) (k : String) (v : JVal)
    (h : (o.map Prod.fst).Nodup) : ((jset o k v).map Prod.fst).Nodup := by
  induction o with
  | nil => simp [jset]
  | cons p rest ih =>
    obtain ⟨k0, v0⟩ := p
    simp only [List.map_cons, List.nodup_cons] at h
    by_cases hp : k0 = k
    · subst hp
      simpa [jset] using h
    · rw [show (jset ((k0, v0) :: rest) k v) = (k0, v0) :: jset rest k v by simp [jset, hp]]
      refine List.nodup_cons.mpr ⟨?_, ih h.2⟩
      intro hmem
      rcases (mem_keys_jset rest k v k0).mp (by simpa using hmem) with h1 | h1
      · exact h.1 h1
      · exact hp h1

theorem jerase_keys_nodup (o : JObj) (k : String)
    (h : (o.map Prod.fst).Nodup) : ((jerase o k).map Prod.fst).Nodup := by
  have hsub : (jerase o k).Sublist o := List.filter_sublist o
  exact (hsub.map Prod.fst).nodup h

/-! ### Claim theorems: option handling and exit handlers -/

/-- C8: the environment-variable namespace prefix defaults to the fixed
3-character sentinel `"___"`, is replaced by `opts.envVarNamespace` exactly
when that option is a string, and a non-string `opts.envVarNamespace` (or an
absent one) leaves the default in effect. -/
theorem c8_envVarNamespace_default_and_override (opts : JObj) :
    resolveEnvVarNamespace [] = "___" ∧
    ("___").length = 3 ∧
    (∀ s, jget opts "envVarNamespace" = some (JVal.str s) →
      resolveEnvVarNamespace opts = s) ∧
    (∀ v, jget opts "envVarNamespace" = some v → v.isString = false →
      resolveEnvVarNamespace opts = "___") ∧
    (jget opts "envVarNamespace" = none → resolveEnvVarNamespace opts = "___") := by
  refine ⟨rfl, rfl, ?_, ?_, ?_⟩
  · intro s h
    simp [resolveEnvVarNamespace, h]
  · intro v h hv
    cases v <;> simp [JVal.isString] at hv ⊢ <;> simp [resolveEnvVarNamespace, h]
  · intro h
    simp [resolveEnvVarNamespace, h]

theorem c8_witness :
    resolveEnvVarNamespace [("envVarNamespace", JVal.str "NS_")] = "NS_" ∧
    resolveEnvVarNamespace [("envVarNamespace", JVal.num 7)] = "___" ∧
    resolveEnvVarNamespace [("x", JVal.str "y")] = "___" :=
  ⟨(c8_envVarNamespace_default_and_override _).2.2.1 "NS_" rfl,
   (c8_envVarNamespace_default_and_override _).2.2.2.1 (JVal.num 7) rfl rfl,
   (c8_envVarNamespace_default_and_override _).2.2.2.2 rfl⟩

/-- C10: when the caller's options carry a truthy `machine` value, the adapter
uses it as the machine definition and deletes the `machine` key from the
caller's options object, leaving every other key of the options unchanged. -/
theorem c10_extract_machine_deletes_key (opts : JObj) (m : JVal)
    (hm : jget opts "machine" = some m) (ht : jsTruthy m = true) :
    (extractMachineDef opts).1 = m ∧
    jget (extractMachineDef opts).2 "machine" = none ∧
    ∀ k, k ≠ "machine" → jget (extractMachineDef opts).2 k = jget opts k := by
  have h2 : extractMachineDef opts = (m, jerase opts "machine") := by
    simp [extractMachineDef, hm, ht]
  rw [h2]
  exact ⟨rfl, jget_jerase_self opts "machine",
    fun k hk => jget_jerase_ne opts "machine" k hk⟩

theorem c10_witness :
    (extractMachineDef [("machine", JVal.dict [("friendlyName", JVal.str "F")]),
        ("envVarNamespace", JVal.str "NS_"), ("args", JVal.arr [JVal.str "a"])]).1 =
      JVal.dict [("friendlyName", JVal.str "F")] ∧
    jget (extractMachineDef [("machine", JVal.dict [("friendlyName", JVal.str "F")]),
        ("envVarNamespace", JVal.str "NS_"), ("args", JVal.arr [JVal.str "a"])]).2
      "machine" = none ∧
    jget (extractMachineDef [("machine", JVal.dict [("friendlyName", JVal.str "F")]),
        ("envVarNamespace", JVal.str "NS_"), ("args", JVal.arr [JVal.str "a"])]).2
      "envVarNamespace" = some (JVal.str "NS_") := by
  obtain ⟨h1, h2, h3⟩ :=
    c10_extract_machine_deletes_key
      [("machine", JVal.dict [("friendlyName", JVal.str "F")]),
       ("envVarNamespace", JVal.str "NS_"), ("args", JVal.arr [JVal.str "a"])]
      (JVal.dict [("friendlyName", JVal.str "F")]) rfl rfl
  exact ⟨h1, h2, (h3 "envVarNamespace" (by decide)).trans rfl⟩

/-- C7: the bound default error handler prints the red failure banner
`Something went wrong:` and then the error's stack trace in gray when the
error carries a (truthy) stack, or the raw error object otherwise. -/
theorem c7_error_handler_banner_and_trace (err : JsError) :
    (∀ s, err.stack = some s → s.isEmpty = false →
      errorExitHandler err =
        [ConsoleLine.red "Something went wrong:", ConsoleLine.gray s]) ∧
    (err.stack = none →
      errorExitHandler err =
        [ConsoleLine.red "Something went wrong:", ConsoleLine.raw err]) := by
  constructor
  · intro s hs hne
    simp [errorExitHandler, hs, hne]
  · intro hs
    simp [errorExitHandler, hs]

theorem c7_witness :
    errorExitHandler ⟨"boom", some "Error: boom"⟩ =
      [ConsoleLine.red "Something went wrong:", ConsoleLine.gray "Error: boom"] ∧
    errorExitHandler ⟨"boom", none⟩ =
      [ConsoleLine.red "Something went wrong:", ConsoleLine.raw ⟨"boom", none⟩] :=
  ⟨(c7_error_handler_banner_and_trace _).1 "Error: boom" rfl rfl,
   (c7_error_handler_banner_and_trace _).2 rfl⟩

/-- C1 (counterexample): with a defined output value and a success exit
descriptor that has none of example / getExample / like / itemOf, the default
success handler prints nothing — not the generic `OK.` message the claim
asserts. -/
theorem c1_counterexample :
    successExitHandler ⟨none, false, none, none⟩ (some (JVal.str "hi")) = [] ∧
    successExitHandler ⟨none, false, none, none⟩ (some (JVal.str "hi")) ≠
      [ConsoleLine.green "OK."] := by
  refine ⟨rfl, fun h => ?_⟩
  rw [show successExitHandler ⟨none, false, none, none⟩ (some (JVal.str "hi")) = []
    from rfl] at h
  exact List.noConfusion h

/-- C1 (amended): when the success exit descriptor has none of example /
getExample / like / itemOf, a defined output value makes the default success
handler print nothing at all (neither the value nor `OK.`); the generic green
`OK.` message is printed exactly when the output value is undefined. -/
theorem c1_success_without_schema_prints_nothing (d : ExitDef) (v : JVal)
    (h : expectsStructuredOutput d = false) :
    successExitHandler d (some v) = [] ∧
    successExitHandler d none = [ConsoleLine.green "OK."] := by
  constructor
  · simp [successExitHandler, h]
  · rfl

theorem c1_witness :
    successExitHandler ⟨none, false, none, none⟩ (some (JVal.num 5)) = [] ∧
    successExitHandler ⟨none, false, none, none⟩ none = [ConsoleLine.green "OK."] :=
  ⟨(c1_success_without_schema_prints_nothing ⟨none, false, none, none⟩
      (JVal.num 5) rfl).1,
   (c1_success_without_schema_prints_nothing ⟨none, false, none, none⟩
      (JVal.num 5) rfl).2⟩

/-! ### Environment-variable supply (C2) -/

theorem supplyEnvVars_cons_none (env : String → Option String) (ns n : String)
    (d : InputDef) (rest : Inputs) (c : JObj) (h : env (ns ++ n) = none) :
    supplyEnvVars env ns ((n, d) :: rest) c = supplyEnvVars env ns rest c := by
  simp [supplyEnvVars, h]

theorem supplyEnvVars_cons_some (env : String → Option String) (ns n : String)
    (d : InputDef) (rest : Inputs) (c : JObj) (v : String)
    (h : env (ns ++ n) = some v) :
    supplyEnvVars env ns ((n, d) :: rest) c =
      supplyEnvVars env ns rest (jset c n (JVal.str v)) := by
  simp [supplyEnvVars, h]

theorem jget_supplyEnvVars_not_mem (env : String → Option String) (ns : String)
    (inputs : Inputs) (c : JObj) (name : String)
    (h : name ∉ inputs.map Prod.fst) :
    jget (supplyEnvVars env ns inputs c) name = jget c name := by
  induction inputs generalizing c with
  | nil => rfl
  | cons p rest ih =>
    obtain ⟨n, d⟩ := p
    simp only [List.map_cons, List.mem_cons, not_or] at h
    cases henv : env (ns ++ n) with
    | none =>
      rw [supplyEnvVars_cons_none env ns n d rest c henv]
      exact ih c (by simpa using h.2)
    | some v =>
      rw [supplyEnvVars_cons_some env ns n d rest c v henv]
      rw [ih (jset c n (JVal.str v)) (by simpa using h.2)]
      exact jget_jset_ne c n name (JVal.str v) h.1

theorem supplyEnvVars_keys_nodup (env : String → Option String) (ns : String)
    (inputs : Inputs) (c : JObj) (h : (c.map Prod.fst).Nodup) :
    ((supplyEnvVars env ns inputs c).map Prod.fst).Nodup := by
  induction inputs generalizing c with
  | nil => exact h
  | cons p rest ih =>
    obtain ⟨n, d⟩ := p
    cases henv : env (ns ++ n) with
    | none =>
      rw [supplyEnvVars_cons_none env ns n d rest c henv]
      exact ih c h
    | some v =>
      rw [supplyEnvVars_cons_some env ns n d rest c v henv]
      exact ih _ (jset_keys_nodup c n (JVal.str v) h)

/-- C2: for every declared input, a present environment variable
`<namespace><inputName>` — even with an empty-string value — overwrites
whatever the CLI flags put in the configuration for that input, while an
absent one leaves the CLI-supplied value untouched. -/
theorem c2_env_var_overrides_cli (env : String → Option String) (ns : String)
    (inputs : Inputs) (c : JObj) (name : String)
    (hmem : name ∈ inputs.map Prod.fst) :
    (∀ v, env (ns ++ name) = some v →
      jget (supplyEnvVars env ns inputs c) name = some (JVal.str v)) ∧
    (env (ns ++ name) = none →
      jget (supplyEnvVars env ns inputs c) name = jget c name) := by
  induction inputs generalizing c with
  | nil => simp at hmem
  | cons p rest ih =>
    obtain ⟨n, d⟩ := p
    by_cases hn : n = name
    · subst hn
      constructor
      · intro v hv
        rw [supplyEnvVars_cons_some env ns n d rest c v hv]
        by_cases hr : n ∈ rest.map Prod.fst
        · exact (ih (jset c n (JVal.str v)) hr).1 v hv
        · rw [jget_supplyEnvVars_not_mem env ns rest _ n hr]
          exact jget_jset_self c n (JVal.str v)
      · intro hv
        rw [supplyEnvVars_cons_none env ns n d rest c hv]
        by_cases hr : n ∈ rest.map Prod.fst
        · exact (ih c hr).2 hv
        · exact jget_supplyEnvVars_not_mem env ns rest c n hr
    · have hr : name ∈ rest.map Prod.fst := by
        simp only [List.map_cons, List.mem_cons] at hmem
        rcases hmem with h1 | h1
        · exact absurd h1.symm hn
        · exact h1
      constructor
      · intro v hv
        cases henv : env (ns ++ n) with
        | none =>
          rw [supplyEnvVars_cons_none env ns n d rest c henv]
          exact (ih c hr).1 v hv
        | some w =>
          rw [supplyEnvVars_cons_some env ns n d rest c w henv]
          exact (ih _ hr).1 v hv
      · intro hv
        cases henv : env (ns ++ n) with
        | none =>
          rw [supplyEnvVars_cons_none env ns n d rest c henv]
          exact (ih c hr).2 hv
        | some w =>
          rw [supplyEnvVars_cons_some env ns n d rest c w henv]
          rw [(ih _ hr).2 hv]
          exact jget_jset_ne c n name (JVal.str w) (fun h => hn h.symm)

/-- Sample environment for the C2 witness: `___foo` is set to `bar`. -/
def env0 : String → Option String :=
  fun k => if k = "___foo" then some "bar" else none

/-- Sample environment with `___foo` set to the empty string. -/
def envEmptyStr : String → Option String :=
  fun k => if k = "___foo" then some "" else none

/-- An empty process environment. -/
def envNone : String → Option String := fun _ => none

theorem c2_witness :
    jget (supplyEnvVars env0 "___" [("foo", ⟨JVal.num 1⟩)]
      [("foo", JVal.str "baz")]) "foo" = some (JVal.str "bar") ∧
    jget (supplyEnvVars envEmptyStr "___" [("foo", ⟨JVal.num 1⟩)]
      [("foo", JVal.str "baz")]) "foo" = some (JVal.str "") ∧
    jget (supplyEnvVars envNone "___" [("foo", ⟨JVal.num 1⟩)]
      [("foo", JVal.str "baz")]) "foo" = some (JVal.str "baz") := by
  refine ⟨?_, ?_, ?_⟩
  · exact (c2_env_var_overrides_cli env0 "___" _ _ "foo" (by simp)).1 "bar" (by decide)
  · exact (c2_env_var_overrides_cli envEmptyStr "___" _ _ "foo" (by simp)).1 "" (by decide)
  · exact ((c2_env_var_overrides_cli envNone "___" _ _ "foo" (by simp)).2 rfl).trans rfl

/-! ### Positional-name override (C4, C9) -/

theorem supplyPositionalAux_cons (pos : List JVal) (k : Nat) (n : String)
    (rest : List String) (c : JObj) :
    supplyPositionalAux pos k (n :: rest) c =
      supplyPositionalAux pos (k + 1) rest (jset c n (pos.getD k .undef)) := rfl

theorem jget_supplyPositionalAux_not_mem (pos : List JVal) (k : Nat)
    (names : List String) (c : JObj) (name : String) (h : name ∉ names) :
    jget (supplyPositionalAux pos k names c) name = jget c name := by
  induction names generalizing k c with
  | nil => rfl
  | cons n rest ih =>
    simp only [List.mem_cons, not_or] at h
    rw [supplyPositionalAux_cons, ih (k + 1) _ h.2]
    exact jget_jset_ne c n name _ h.1

theorem jget_supplyPositionalAux_get (pos : List JVal) (names : List String)
    (hnd : names.Nodup) (k : Nat) (c : JObj) (i : Nat) (n : String)
    (hi : names.get? i = some n) :
    jget (supplyPositionalAux pos k names c) n = some (pos.getD (k + i) .undef) := by
  induction names generalizing k c i with
  | nil => simp at hi
  | cons m rest ih =>
    rw [supplyPositionalAux_cons]
    cases i with
    | zero =>
      rw [List.get?_cons_zero] at hi
      injection hi with hmn
      have hnm : n ∉ rest := by
        rw [← hmn]
        exact (List.nodup_cons.mp hnd).1
      rw [hmn, jget_supplyPositionalAux_not_mem pos (k + 1) rest _ n hnm, jget_jset_self,
        Nat.add_zero]
    | succ j =>
      rw [List.get?_cons_succ] at hi
      have hrec := ih (List.nodup_cons.mp hnd).2 (k + 1) (jset c m (pos.getD k .undef)) j hi
      rw [hrec]
      have hx : k + 1 + j = k + (j + 1) := by omega
      rw [hx]

theorem supplyPositionalAux_keys_nodup (pos : List JVal) (k : Nat)
    (names : List String) (c : JObj) (h : (c.map Prod.fst).Nodup) :
    ((supplyPositionalAux pos k names c).map Prod.fst).Nodup := by
  induction names generalizing k c with
  | nil => exact h
  | cons n rest ih =>
    rw [supplyPositionalAux_cons]
    exact ih (k + 1) _ (jset_keys_nodup c n _ h)

theorem assembleConfig_keys_nodup (yargsArgv : JObj) (env : String → Option String)
    (ns : String) (inputs : Inputs) (positional : List JVal)
    (argNames : Option (List String)) (h : (yargsArgv.map Prod.fst).Nodup) :
    ((assembleConfig yargsArgv env ns inputs positional argNames).map Prod.fst).Nodup := by
  have h1 : ((initialCliConfig yargsArgv).map Prod.fst).Nodup :=
    jerase_keys_nodup _ "$0" (jerase_keys_nodup _ "_" h)
  have h2 := supplyEnvVars_keys_nodup env ns inputs _ h1
  have h3 := jset_keys_nodup (supplyEnvVars env ns inputs (initialCliConfig yargsArgv))
    "args" (JVal.arr positional) h2
  cases argNames with
  | none => exact h3
  | some names => exact supplyPositionalAux_keys_nodup positional 0 names _ h3

/-- C4: with an explicit `opts.args` name list, the Nth declared name receives
the Nth positional token in the final assembled configuration, no matter what
CLI flags or environment variables put there earlier — the positional override
runs last. -/
theorem c4_positional_names_override (yargsArgv : JObj) (env : String → Option String)
    (ns : String) (inputs : Inputs) (positional : List JVal) (names : List String)
    (hnd : names.Nodup) (i : Nat) (n : String) (hi : names.get? i = some n)
    (v : JVal) (hv : positional.get? i = some v) :
    jget (assembleConfig yargsArgv env ns inputs positional (some names)) n = some v := by
  have hmain : jget (assembleConfig yargsArgv env ns inputs positional (some names)) n =
      some (positional.getD (0 + i) .undef) :=
    jget_supplyPositionalAux_get positional names hnd 0 _ i n hi
  rw [hmain, Nat.zero_add]
  rw [show positional.getD i JVal.undef = v by
    simp [List.getD, ← List.get?_eq_getElem?, hv]]

theorem c4_witness :
    jget (assembleConfig [("first", JVal.str "x"), ("second", JVal.str "y")]
      envNone "___" [("first", ⟨JVal.str "s"⟩), ("second", ⟨JVal.str "s"⟩)]
      [JVal.str "a", JVal.str "b"] (some ["first", "second"])) "first"
      = some (JVal.str "a") ∧
    jget (assembleConfig [("first", JVal.str "x"), ("second", JVal.str "y")]
      envNone "___" [("first", ⟨JVal.str "s"⟩), ("second", ⟨JVal.str "s"⟩)]
      [JVal.str "a", JVal.str "b"] (some ["first", "second"])) "second"
      = some (JVal.str "b") :=
  ⟨c4_positional_names_override _ envNone "___" _ _ ["first", "second"] (by decide)
      0 "first" rfl (JVal.str "a") rfl,
   c4_positional_names_override _ envNone "___" _ _ ["first", "second"] (by decide)
      1 "second" rfl (JVal.str "b") rfl⟩

/-! ### Coercion reduce (C3, C6, C9) -/

theorem coerceConfigAux_cons_decl (inputs : Inputs) (memo : JObj) (k : String)
    (v : JVal) (rest : JObj) (d : InputDef) (h : lookupInput inputs k = some d) :
    coerceConfigAux inputs memo ((k, v) :: rest) =
      coerceConfigAux inputs
        (jset memo k (parseHuman (jsToString v) (infer d.exampleVal) true)) rest := by
  simp [coerceConfigAux, h]

theorem coerceConfigAux_cons_args (inputs : Inputs) (memo : JObj) (v : JVal)
    (rest : JObj) (h : lookupInput inputs "args" = none) :
    coerceConfigAux inputs memo (("args", v) :: rest) =
      coerceConfigAux inputs memo rest := by
  simp [coerceConfigAux, h]

theorem coerceConfigAux_cons_unknown (inputs : Inputs) (memo : JObj) (k : String)
    (v : JVal) (rest : JObj) (h : lookupInput inputs k = none) (hk : k ≠ "args") :
    coerceConfigAux inputs memo ((k, v) :: rest) =
      .error ("Unexpected error: received configuration for unknown input (" ++ k ++ ")") := by
  simp [coerceConfigAux, h, hk]

theorem coerceConfigAux_ok_not_mem (inputs : Inputs) (config : JObj) :
    ∀ (memo out : JObj) (name : String), name ∉ config.map Prod.fst →
    coerceConfigAux inputs memo config = .ok out →
    jget out name = jget memo name := by
  induction config with
  | nil =>
    intro memo out name _ hok
    obtain rfl : memo = out := by
      simpa [coerceConfigAux] using hok
    rfl
  | cons e rest ih =>
    obtain ⟨k, v⟩ := e
    intro memo out name h hok
    simp only [List.map_cons, List.mem_cons, not_or] at h
    cases hlk : lookupInput inputs k with
    | some d =>
      rw [coerceConfigAux_cons_decl inputs memo k v rest d hlk] at hok
      rw [ih _ out name h.2 hok]
      exact jget_jset_ne memo k name _ h.1
    | none =>
      by_cases hargs : k = "args"
      · subst hargs
        rw [coerceConfigAux_cons_args inputs memo v rest hlk] at hok
        exact ih memo out name h.2 hok
      · rw [coerceConfigAux_cons_unknown inputs memo k v rest hlk hargs] at hok
        exact Except.noConfusion hok

theorem coerceConfigAux_ok_get (inputs : Inputs) (config : JObj)
    (hnd : (config.map Prod.fst).Nodup) :
    ∀ (memo out : JObj) (name : String) (v : JVal) (d : InputDef),
    jget config name = some v → lookupInput inputs name = some d →
    coerceConfigAux inputs memo config = .ok out →
    jget out name = some (parseHuman (jsToString v) (infer d.exampleVal) true) := by
  induction config with
  | nil =>
    intro memo out name v d hv _ _
    simp [jget] at hv
  | cons e rest ih =>
    obtain ⟨k, w⟩ := e
    intro memo out name v d hv hd hok
    have hnd' : (rest.map Prod.fst).Nodup :=
      (List.nodup_cons.mp (by simpa using hnd)).2
    by_cases hk : k = name
    · subst hk
      obtain rfl : w = v := by simpa [jget] using hv
      rw [coerceConfigAux_cons_decl inputs memo k w rest d hd] at hok
      have hnmem : k ∉ rest.map Prod.fst :=
        (List.nodup_cons.mp (by simpa using hnd)).1
      rw [coerceConfigAux_ok_not_mem inputs rest _ out k hnmem hok]
      exact jget_jset_self memo k _
    · have hv' : jget rest name = some v := by simpa [jget, hk] using hv
      cases hlk : lookupInput inputs k with
      | some dk =>
        rw [coerceConfigAux_cons_decl inputs memo k w rest dk hlk] at hok
        exact ih hnd' _ out name v d hv' hd hok
      | none =>
        by_cases hargs : k = "args"
        · subst hargs
          rw [coerceConfigAux_cons_args inputs memo w rest hlk] at hok
          exact ih hnd' memo out name v d hv' hd hok
        · rw [coerceConfigAux_cons_unknown inputs memo k w rest hlk hargs] at hok
          exact Except.noConfusion hok

theorem coerceConfigAux_error_of_unknown (inputs : Inputs) (config : JObj) :
    ∀ (memo : JObj) (k : String), k ∈ config.map Prod.fst →
    lookupInput inputs k = none → k ≠ "args" →
    ∃ e, coerceConfigAux inputs memo config = .error e := by
  induction config with
  | nil =>
    intro memo k hk _ _
    simp at hk
  | cons e rest ih =>
    obtain ⟨k0, v0⟩ := e
    intro memo k hk hno hna
    simp only [List.map_cons, List.mem_cons] at hk
    cases hlk : lookupInput inputs k0 with
    | some d =>
      rcases hk with h1 | h1
      · subst h1
        rw [hlk] at hno
        exact Option.noConfusion hno
      · rw [coerceConfigAux_cons_decl inputs memo k0 v0 rest d hlk]
        exact ih _ k h1 hno hna
    | none =>
      by_cases hargs : k0 = "args"
      · subst hargs
        rcases hk with h1 | h1
        · exact absurd h1 hna
        · rw [coerceConfigAux_cons_args inputs memo v0 rest hlk]
          exact ih memo k h1 hno hna
      · exact ⟨_, coerceConfigAux_cons_unknown inputs memo k0 v0 rest hlk hargs⟩

theorem coerceConfigAux_ok_args_dropped (inputs : Inputs) (config : JObj)
    (hargs : lookupInput inputs "args" = none) :
    ∀ (memo out : JObj), jget memo "args" = none →
    coerceConfigAux inputs memo config = .ok out →
    jget out "args" = none := by
  induction config with
  | nil =>
    intro memo out hmemo hok
    obtain rfl : memo = out := by
      simpa [coerceConfigAux] using hok
    exact hmemo
  | cons e rest ih =>
    obtain ⟨k, v⟩ := e
    intro memo out hmemo hok
    cases hlk : lookupInput inputs k with
    | some d =>
      have hkargs : k ≠ "args" := by
        intro hh
        rw [hh, hargs] at hlk
        exact Option.noConfusion hlk
      rw [coerceConfigAux_cons_decl inputs memo k v rest d hlk] at hok
      refine ih _ out ?_ hok
      rw [jget_jset_ne memo k "args" _ (fun hh => hkargs hh.symm)]
      exact hmemo
    | none =>
      by_cases hka : k = "args"
      · subst hka
        rw [coerceConfigAux_cons_args inputs memo v rest hlk] at hok
        exact ih memo out hmemo hok
      · rw [coerceConfigAux_cons_unknown inputs memo k v rest hlk hka] at hok
        exact Except.noConfusion hok

/-- C3: a configuration key that matches no declared input is a fatal error —
the reduce throws an `unknown input` error — except for the reserved `args`
key, which (when no input named `args` is declared) is silently dropped from
the coerced configuration. -/
theorem c3_unknown_input_fatal_args_skipped (inputs : Inputs) (config : JObj) :
    (∀ k, k ∈ config.map Prod.fst → lookupInput inputs k = none → k ≠ "args" →
      ∃ e, coerceConfig inputs config = .error e) ∧
    (lookupInput inputs "args" = none →
      ∀ out, coerceConfig inputs config = .ok out → jget out "args" = none) := by
  constructor
  · intro k hk hno hna
    exact coerceConfigAux_error_of_unknown inputs config [] k hk hno hna
  · intro hargs out hok
    exact coerceConfigAux_ok_args_dropped inputs config hargs [] out rfl hok

theorem c3_witness :
    (∃ e, coerceConfig [("foo", ⟨JVal.num 1⟩)] [("bar", JVal.str "x")] =
      Except.error e) ∧
    jget [("foo", JVal.num 3)] "args" = none :=
  ⟨(c3_unknown_input_fatal_args_skipped [("foo", ⟨JVal.num 1⟩)]
      [("bar", JVal.str "x")]).1 "bar" (by simp) rfl (by decide),
   (c3_unknown_input_fatal_args_skipped [("foo", ⟨JVal.num 1⟩)]
      [("args", JVal.arr []), ("foo", JVal.str "3")]).2 rfl
      [("foo", JVal.num 3)] rfl⟩

/-- C6: every configured value for a declared input is stringified (`val + ''`)
and then parsed with `rttc.parseHuman` in lenient mode for the type inferred
from the input's declared example; in particular an input with a numeric
example supplied as `--count 42` coerces to the number `42`, not the string
`"42"`. -/
theorem c6_stringify_then_parse_human (inputs : Inputs) (config : JObj)
    (hnd : (config.map Prod.fst).Nodup) :
    (∀ (name : String) (v : JVal) (d : InputDef) (out : JObj),
      jget config name = some v → lookupInput inputs name = some d →
      coerceConfig inputs config = .ok out →
      jget out name = some (parseHuman (jsToString v) (infer d.exampleVal) true)) ∧
    coerceConfig [("count", ⟨JVal.num 1⟩)] [("count", JVal.num 42)] =
      .ok [("count", JVal.num 42)] := by
  constructor
  · intro name v d out hv hd hok
    exact coerceConfigAux_ok_get inputs config hnd [] out name v d hv hd hok
  · rfl

theorem c6_witness :
    jget [("count", JVal.num 42)] "count" = some (JVal.num 42) :=
  (c6_stringify_then_parse_human [("count", ⟨JVal.num 1⟩)]
      [("count", JVal.num 42)] (by decide)).1 "count" (JVal.num 42) ⟨JVal.num 1⟩
      [("count", JVal.num 42)] rfl rfl rfl

/-- C9: when `opts.args` declares more positional names than positional tokens
supplied, each surplus name is still configured — with the `undefined` token,
which is then stringified to `"undefined"` and run through human-friendly
coercion for the input's inferred type — rather than being left
unconfigured. -/
theorem c9_surplus_positional_names_get_undefined (yargsArgv : JObj)
    (env : String → Option String) (ns : String) (inputs : Inputs)
    (positional : List JVal) (names : List String) (hnd : names.Nodup)
    (hky : (yargsArgv.map Prod.fst).Nodup)
    (i : Nat) (n : String) (hi : names.get? i = some n)
    (hip : positional.length ≤ i) (d : InputDef)
    (hd : lookupInput inputs n = some d) (out : JObj)
    (hok : coerceConfig inputs
      (assembleConfig yargsArgv env ns inputs positional (some names)) = .ok out) :
    jget out n = some (parseHuman "undefined" (infer d.exampleVal) true) := by
  have hgetcfg :
      jget (assembleConfig yargsArgv env ns inputs positional (some names)) n =
        some JVal.undef := by
    have hmain := jget_supplyPositionalAux_get positional names hnd 0
      (supplyArgsKey positional (supplyEnvVars env ns inputs (initialCliConfig yargsArgv)))
      i n hi
    rw [show assembleConfig yargsArgv env ns inputs positional (some names) =
        supplyPositionalAux positional 0 names
          (supplyArgsKey positional
            (supplyEnvVars env ns inputs (initialCliConfig yargsArgv))) from rfl]
    rw [hmain, Nat.zero_add]
    rw [show positional.getD i JVal.undef = JVal.undef from
      List.getD_eq_default _ _ hip]
  have hndcfg := assembleConfig_keys_nodup yargsArgv env ns inputs positional
    (some names) hky
  exact coerceConfigAux_ok_get inputs _ hndcfg [] out n JVal.undef d hgetcfg hd hok

theorem c9_witness :
    jget [("first", JVal.str "a"), ("second", JVal.num 0)] "second" =
      some (parseHuman "undefined" (infer (JVal.num 1)) true) :=
  c9_surplus_positional_names_get_undefined [] envNone "___"
    [("first", ⟨JVal.str "x"⟩), ("second", ⟨JVal.num 1⟩)] [JVal.str "a"]
    ["first", "second"] (by decide) (by decide) 1 "second" rfl (by decide)
    ⟨JVal.num 1⟩ rfl [("first", JVal.str "a"), ("second", JVal.num 0)] rfl

/-! ### Flag derivation (C5) -/

theorem deriveFlagsAux_get? (used : List String) (inputs : List String) :
    ∀ (j : Nat) (n : String), inputs.get? j = some n →
    (deriveFlagsAux used inputs).get? j =
      some (n, "--" ++ n,
        if shortcutOf n ∈ used ++ (inputs.take j).map shortcutOf then none
        else some (shortcutOf n)) := by
  induction inputs generalizing used with
  | nil =>
    intro j n hj
    simp at hj
  | cons m rest ih =>
    intro j n hj
    cases j with
    | zero =>
      rw [List.get?_cons_zero] at hj
      injection hj with hmn
      subst hmn
      by_cases hsc : shortcutOf m ∈ used
      · simp [deriveFlagsAux, hsc]
      · simp [deriveFlagsAux, hsc]
    | succ j =>
      rw [List.get?_cons_succ] at hj
      by_cases hsc : shortcutOf m ∈ used
      · rw [show deriveFlagsAux used (m :: rest) =
            (m, "--" ++ m, none) :: deriveFlagsAux used rest by
          simp [deriveFlagsAux, hsc]]
        rw [List.get?_cons_succ, ih used j n hj]
        have hiff : (shortcutOf n ∈ used ++ (rest.take j).map shortcutOf) ↔
            (shortcutOf n ∈ used ++ ((m :: rest).take (j + 1)).map shortcutOf) := by
          simp only [List.take_succ_cons, List.map_cons, List.mem_append, List.mem_cons]
          constructor
          · rintro (h | h)
            · exact Or.inl h
            · exact Or.inr (Or.inr h)
          · rintro (h | h | h)
            · exact Or.inl h
            · refine Or.inl ?_
              rw [h]
              exact hsc
            · exact Or.inr h
        exact congrArg (fun c => some (n, "--" ++ n, c)) (if_congr hiff rfl rfl)
      · rw [show deriveFlagsAux used (m :: rest) =
            (m, "--" ++ m, some (shortcutOf m)) ::
              deriveFlagsAux (used ++ [shortcutOf m]) rest by
          simp [deriveFlagsAux, hsc]]
        rw [List.get?_cons_succ, ih (used ++ [shortcutOf m]) j n hj]
        have hiff : (shortcutOf n ∈ (used ++ [shortcutOf m]) ++ (rest.take j).map shortcutOf) ↔
            (shortcutOf n ∈ used ++ ((m :: rest).take (j + 1)).map shortcutOf) := by
          simp only [List.take_succ_cons, List.map_cons, List.mem_append, List.mem_cons,
            List.mem_singleton]
          tauto
        exact congrArg (fun c => some (n, "--" ++ n, c)) (if_congr hiff rfl rfl)

/-- C5: of any two declared inputs whose names begin with the same letter, in
declaration order, only the first to carry that letter gets the short flag
`-letter`; every later input with that first letter gets only its long flag
`--name`, the letter staying claimed for the rest of the loop. -/
theorem c5_first_input_claims_short_flag (inputs : List String) (i j : Nat)
    (a b : String) (hij : i < j)
    (ha : inputs.get? i = some a) (hb : inputs.get? j = some b)
    (hsame : shortcutOf a = shortcutOf b)
    (hfirst : ∀ k c, k < i → inputs.get? k = some c → shortcutOf c ≠ shortcutOf a) :
    (deriveFlags inputs).get? i = some (a, "--" ++ a, some (shortcutOf a)) ∧
    (deriveFlags inputs).get? j = some (b, "--" ++ b, none) := by
  constructor
  · rw [deriveFlags, deriveFlagsAux_get? [] inputs i a ha]
    have hcond : shortcutOf a ∉ ([] : List String) ++ (inputs.take i).map shortcutOf := by
      simp only [List.nil_append, List.mem_map]
      rintro ⟨c, hc, hce⟩
      obtain ⟨k, hk⟩ := List.mem_iff_get?.mp hc
      have hklen : k < (inputs.take i).length := by
        rcases List.get?_eq_some.mp hk with ⟨hlt, _⟩
        exact hlt
      have hki : k < i := by
        rw [List.length_take] at hklen
        omega
      have hkc : inputs.get? k = some c := by
        rw [← List.get?_take hki]
        exact hk
      exact hfirst k c hki hkc hce
    rw [if_neg hcond]
  · rw [deriveFlags, deriveFlagsAux_get? [] inputs j b hb]
    have hcond : shortcutOf b ∈ ([] : List String) ++ (inputs.take j).map shortcutOf := by
      simp only [List.nil_append, List.mem_map]
      refine ⟨a, ?_, hsame⟩
      have hta : (inputs.take j).get? i = some a := by
        rw [List.get?_take hij]
        exact ha
      exact List.get?_mem hta
    rw [if_pos hcond]

theorem c5_witness :
    (deriveFlags ["path", "port"]).get? 0 =
      some ("path", "--path", some (shortcutOf "path")) ∧
    (deriveFlags ["path", "port"]).get? 1 = some ("port", "--port", none) :=
  ⟨(c5_first_input_claims_short_flag ["path", "port"] 0 1 "path" "port"
      (by decide) rfl rfl (by decide)
      (fun k c hk _ => absurd hk (Nat.not_lt_zero k))).1,
   (c5_first_input_claims_short_flag ["path", "port"] 0 1 "path" "port"
      (by decide) rfl rfl (by decide)
      (fun k c hk _ => absurd hk (Nat.not_lt_zero k))).2⟩

end MachineAsScript
